import Mathlib

/-!
Verification of the flashcard study client's algorithmic core:
string normalization, Levenshtein distance (single-row rolling DP),
similarity scoring with feedback tiers, token diff rendering, and the
reveal/rating guard logic.  Strings are embedded as `List Char`
(the relevant inputs are BMP text, where JS UTF-16 code units coincide
with code points).  Fractional scores live in `ℚ` (the JS doubles in
play are small dyadic/decimal values; comparisons against 0.85/0.6 are
modelled exactly).
-/

namespace Anki

/-- Combining diacritical marks, the range `U+0300..U+036F` stripped by
`normalizeForCompare`. -/
def isCombiningMark (c : Char) : Bool :=
  0x300 ≤ c.toNat && c.toNat ≤ 0x36f

/-- Combining grave accent U+0300. -/
def markGrave : Char := Char.ofNat 0x300

/-- Combining acute accent U+0301. -/
def markAcute : Char := Char.ofNat 0x301

/-- Combining circumflex U+0302. -/
def markCirc : Char := Char.ofNat 0x302

/-- Combining diaeresis U+0308. -/
def markDiaer : Char := Char.ofNat 0x308

/-- Combining cedilla U+0327. -/
def markCedilla : Char := Char.ofNat 0x327

/-- The apostrophe character. -/
def apos : Char := Char.ofNat 39

/-- The canonical (NFD) decompositions of the precomposed Latin letters
this client processes (French text). -/
def nfdPairs : List (Char × List Char) :=
  [('à', ['a', markGrave]), ('â', ['a', markCirc]), ('ä', ['a', markDiaer]),
   ('ç', ['c', markCedilla]),
   ('é', ['e', markAcute]), ('è', ['e', markGrave]), ('ê', ['e', markCirc]),
   ('ë', ['e', markDiaer]),
   ('î', ['i', markCirc]), ('ï', ['i', markDiaer]),
   ('ô', ['o', markCirc]), ('ö', ['o', markDiaer]),
   ('ù', ['u', markGrave]), ('û', ['u', markCirc]), ('ü', ['u', markDiaer]),
   ('ÿ', ['y', markDiaer]),
   ('À', ['A', markGrave]), ('Â', ['A', markCirc]), ('Ä', ['A', markDiaer]),
   ('Ç', ['C', markCedilla]),
   ('É', ['E', markAcute]), ('È', ['E', markGrave]), ('Ê', ['E', markCirc]),
   ('Ë', ['E', markDiaer]),
   ('Î', ['I', markCirc]), ('Ï', ['I', markDiaer]),
   ('Ô', ['O', markCirc]), ('Ö', ['O', markDiaer]),
   ('Ù', ['U', markGrave]), ('Û', ['U', markCirc]), ('Ü', ['U', markDiaer])]

/-- Model of `String.prototype.normalize("NFD")` at the level of a single
character: look up the canonical decomposition; characters with no
decomposition in the table are returned unchanged. -/
def nfdChar (c : Char) : List Char :=
  match nfdPairs.find? (fun p => p.1 = c) with
  | some p => p.2
  | none => [c]

/-- The lowercase mappings of `String.prototype.toLowerCase` for the
characters that can reach it in this pipeline (ASCII letters and the
undecomposable ligatures). -/
def lowerPairs : List (Char × Char) :=
  [('A', 'a'), ('B', 'b'), ('C', 'c'), ('D', 'd'), ('E', 'e'), ('F', 'f'),
   ('G', 'g'), ('H', 'h'), ('I', 'i'), ('J', 'j'), ('K', 'k'), ('L', 'l'),
   ('M', 'm'), ('N', 'n'), ('O', 'o'), ('P', 'p'), ('Q', 'q'), ('R', 'r'),
   ('S', 's'), ('T', 't'), ('U', 'u'), ('V', 'v'), ('W', 'w'), ('X', 'x'),
   ('Y', 'y'), ('Z', 'z'), ('Œ', 'œ'), ('Æ', 'æ')]

/-- Model of `String.prototype.toLowerCase` at a single character; other
characters are returned unchanged. -/
def jsToLower (c : Char) : Char :=
  match lowerPairs.find? (fun p => p.1 = c) with
  | some p => p.2
  | none => c

/-- The character class `[a-zœæç'\-]` kept by `normalizeForCompare`;
everything else is collapsed to a single space. -/
def keepChar (c : Char) : Bool :=
  ('a' ≤ c && c ≤ 'z') || c = 'œ' || c = 'æ' || c = 'ç' || c = apos || c = '-'

/-- The global replace of `/[^a-zœæç'\-]+/` by a single space: each maximal
run of non-kept characters is emitted as one `' '`.  The flag records
whether we are inside such a run. -/
def collapseAux : Bool → List Char → List Char
  | _, [] => []
  | inRun, c :: rest =>
    if keepChar c then c :: collapseAux false rest
    else if inRun then collapseAux true rest
    else ' ' :: collapseAux true rest

/-- Collapse maximal runs of non-kept characters to single spaces. -/
def collapseNonKeep (l : List Char) : List Char := collapseAux false l

/-- Drop trailing whitespace. -/
def trimRight : List Char → List Char
  | [] => []
  | c :: rest =>
    match trimRight rest with
    | [] => if c.isWhitespace then [] else [c]
    | r => c :: r

/-- Model of `String.prototype.trim`: drop leading and trailing
whitespace. -/
def jsTrim (l : List Char) : List Char :=
  trimRight (l.dropWhile Char.isWhitespace)

/-- `normalizeForCompare` from the source: NFD-decompose, strip combining
marks U+0300..U+036F, lowercase, collapse every run outside `[a-zœæç'\-]`
to a single space, and trim. -/
def normalizeForCompare (s : List Char) : List Char :=
  jsTrim (collapseNonKeep (List.map jsToLower
    (List.filter (fun c => !isCombiningMark c) (s.flatMap nfdChar))))

/-- The inner `for (let j = 1; ...)` loop of `levenshtein`: `prev` is the
old row's value at `j-1` (the source's `prev`), `cur` the new row's value
at `j-1` (the already-overwritten `dp[j-1]`), the first list holds the
remaining characters `b[j-1], b[j], ...`, and the second the old row's
values `dp[j], dp[j+1], ...` (read through `temp`).  It returns the new
row's values at positions `j, j+1, ...`. -/
def levInner (x : Char) : Nat → Nat → List Char → List Nat → List Nat
  | _, _, [], _ => []
  | _, _, _ :: _, [] => []
  | prev, cur, y :: ys, old :: olds =>
    let v := if x = y then prev
             else Nat.min (prev + 1) (Nat.min (old + 1) (cur + 1))
    v :: levInner x old v ys olds

/-- One iteration of the outer loop of `levenshtein`: update the rolling
row `dp` for the next character `x` of `a`, where `i` is the 1-based index
of `x` (the source's `prev = dp[0]; dp[0] = i` followed by the inner
loop). -/
def levRow (x : Char) (i : Nat) (b : List Char) (dp : List Nat) : List Nat :=
  match dp with
  | [] => []
  | d0 :: rest => i :: levInner x d0 i b rest

/-- The outer `for (let i = 1; ...)` loop of `levenshtein`. -/
def levLoop (b : List Char) : List Char → Nat → List Nat → List Nat
  | [], _, dp => dp
  | x :: xs, i, dp => levLoop b xs (i + 1) (levRow x i b dp)

/-- `levenshtein` from the source: single-row rolling dynamic-programming
buffer of length `len(b)+1`, initialized to `[0..n]`, updated once per
character of `a`; the answer is the final `dp[n]`. -/
def levenshtein (a b : List Char) : Nat :=
  if a.length = 0 then b.length
  else if b.length = 0 then a.length
  else (levLoop b a 1 (List.range (b.length + 1))).getLastD 0

/-- The textbook recursive definition of Levenshtein distance with unit
costs for insert, delete and substitute. -/
def levenshteinSpec : List Char → List Char → Nat
  | [], b => b.length
  | a, [] => a.length
  | x :: xs, y :: ys =>
    if x = y then levenshteinSpec xs ys
    else 1 + Nat.min (levenshteinSpec xs ys)
          (Nat.min (levenshteinSpec xs (y :: ys)) (levenshteinSpec (x :: xs) ys))

/-- `similarityScore` from the source: normalize both strings, return 0 if
either normalization is empty, otherwise `1 − distance / maxLen` (the
`maxLen = 0` guard of the source is kept although it is unreachable). -/
def similarityScore (expected actual : List Char) : ℚ :=
  let cleanExpected := normalizeForCompare expected
  let cleanActual := normalizeForCompare actual
  if cleanExpected = [] ∨ cleanActual = [] then 0
  else
    let distance := levenshtein cleanExpected cleanActual
    let maxLen := Nat.max cleanExpected.length cleanActual.length
    if maxLen = 0 then 0
    else 1 - (distance : ℚ) / (maxLen : ℚ)

/-! ### Pronunciation feedback (`evaluatePronunciation`, lines 303-339) -/

/-- The four user-visible feedback outcomes of `evaluatePronunciation`:
the fixed no-valid-text message, and the three score tiers. -/
inductive Feedback where
  | noText
  | veryClose
  | decent
  | largeDeviation
  deriving DecidableEq, Repr

/-- `Array.prototype.join(" ")`: interleave a single space between the
segments. -/
def joinSpace : List (List Char) → List Char
  | [] => []
  | [s] => s
  | s :: rest => s ++ ' ' :: joinSpace rest

/-- The scoring branch of `evaluatePronunciation`: the recognized text is
the segments joined by spaces and trimmed; if it is empty the fixed
no-valid-text message stands, otherwise the similarity score against the
expected sentence selects the tier. -/
def evaluatePronunciation (expected : List Char)
    (recognizedSegments : List (List Char)) : Feedback :=
  let actual := jsTrim (joinSpace recognizedSegments)
  if actual = [] then Feedback.noText
  else
    let score := similarityScore expected actual
    if score ≥ 85 / 100 then Feedback.veryClose
    else if score ≥ 60 / 100 then Feedback.decent
    else Feedback.largeDeviation

/-! ### Token diff rendering (`renderTokens`, french_vocab.js lines 38-55) -/

/-- A diff token as returned by the diff service: a text and a status
string (`"match"`, `"missing"`, or anything else for extra). -/
structure Token where
  text : List Char
  status : List Char
  deriving DecidableEq, Repr

/-- Replace every occurrence of the character `c` by the string `r`
(one global regex replace of `escapeHtml`). -/
def replaceChar (c : Char) (r : List Char) (s : List Char) : List Char :=
  s.flatMap (fun d => if d = c then r else [d])

/-- `escapeHtml` from the source: the five global replaces, applied in
the source's order (`&` first). -/
def escapeHtml (s : List Char) : List Char :=
  replaceChar (Char.ofNat 39) ("&#39;".toList)
    (replaceChar '"' ("&quot;".toList)
      (replaceChar '>' ("&gt;".toList)
        (replaceChar '<' ("&lt;".toList)
          (replaceChar '&' ("&amp;".toList) s))))

/-- The CSS class chosen for a token status: `diff-match` for `"match"`,
`diff-miss` for `"missing"`, `diff-extra` otherwise. -/
def classOf (status : List Char) : List Char :=
  if status = ("match".toList) then "diff-match".toList
  else if status = ("missing".toList) then "diff-miss".toList
  else "diff-extra".toList

/-- The `<span class="...">...</span>` wrapper for one token. -/
def spanOf (t : Token) : List Char :=
  ("<span class=\"".toList) ++ classOf t.status ++ ("\">".toList) ++
    escapeHtml t.text ++ ("</span>".toList)

/-- The regex `^[,.;!?):\]”’]$`: the token text is a single
closing-punctuation character. -/
def isClosingPunct (s : List Char) : Bool :=
  match s with
  | [c] => c = ',' || c = '.' || c = ';' || c = '!' || c = '?' || c = ')' ||
      c = ':' || c = ']' || c = '”' || c = '’'
  | _ => false

/-- The regex `^[({“‘]$`: the token text is a single opening
bracket/quote. -/
def isOpeningBracket (s : List Char) : Bool :=
  match s with
  | [c] => c = '(' || c = '{' || c = '“' || c = '‘'
  | _ => false

/-- The `forEach` body of `renderTokens` for positions `idx > 0`: a space
is pushed before the span unless the token is closing punctuation or the
previous token is an opening bracket/quote. -/
def renderRest (prev : Token) : List Token → List Char
  | [] => []
  | t :: ts =>
    (if isClosingPunct t.text || isOpeningBracket prev.text then []
     else [' ']) ++ spanOf t ++ renderRest t ts

/-- `renderTokens` from the source; `none` models a missing (`null` or
`undefined`) token array, which — like an empty one — renders to the
empty string. -/
def renderTokens : Option (List Token) → List Char
  | none => []
  | some [] => []
  | some (t :: ts) => spanOf t ++ renderRest t ts

/-! ### Reveal / rating guard (part_001 `showAnswer` lines 158-167,
`submitAnswer` lines 264-271) -/

/-- Network effects observable from the reveal/rating handlers. -/
inductive Effect where
  | postReveal
  | postAnswer (cardId : Nat) (ease : Nat)
  deriving DecidableEq, Repr

/-- The controller state relevant to the reveal/rating guards: the current
card (by id), the `answerShown` flag, and whether the rating buttons are
enabled in the DOM. -/
structure ReviewState where
  currentCard : Option Nat
  answerShown : Bool
  buttonsEnabled : Bool
  deriving DecidableEq, Repr

/-- `showAnswer` from part_001: bail out unless a card is current and the
answer is not yet shown; otherwise set `answerShown` and fire the
best-effort reveal notification. -/
def showAnswer (s : ReviewState) : ReviewState × List Effect :=
  if s.currentCard = none ∨ s.answerShown then (s, [])
  else ({ s with answerShown := true }, [Effect.postReveal])

/-- `submitAnswer` from part_001: bail out only when no card is current;
otherwise disable the buttons and post the rating.  On success `loadCard`
replaces the state wholesale (`clearUI` then the next card); on failure
the buttons are re-enabled and the card and `answerShown` flag are kept. -/
def submitAnswer (s : ReviewState) (ease : Nat) (serverOk : Bool)
    (next : Option Nat) : ReviewState × List Effect :=
  match s.currentCard with
  | none => (s, [])
  | some cid =>
    if serverOk then
      ({ currentCard := next, answerShown := false, buttonsEnabled := false },
        [Effect.postAnswer cid ease])
    else
      ({ s with buttonsEnabled := true }, [Effect.postAnswer cid ease])

/-! ### Levenshtein lemmas -/

theorem natMin_eq_min (a b : Nat) : Nat.min a b = min a b := rfl

theorem natMax_eq_max (a b : Nat) : Nat.max a b = max a b := rfl

theorem levSpec_nil_left (b : List Char) : levenshteinSpec [] b = b.length := by
  simp [levenshteinSpec]

theorem levSpec_nil_right (a : List Char) : levenshteinSpec a [] = a.length := by
  cases a <;> simp [levenshteinSpec]

theorem levSpec_cons_cons (x y : Char) (xs ys : List Char) :
    levenshteinSpec (x :: xs) (y :: ys) =
      if x = y then levenshteinSpec xs ys
      else 1 + Nat.min (levenshteinSpec xs ys)
        (Nat.min (levenshteinSpec xs (y :: ys))
          (levenshteinSpec (x :: xs) ys)) := by
  simp [levenshteinSpec]

theorem levSpec_comm_aux :
    ∀ n a b, a.length + b.length ≤ n →
      levenshteinSpec a b = levenshteinSpec b a := by
  intro n
  induction n with
  | zero =>
    intro a b h
    have ha : a = [] := List.eq_nil_of_length_eq_zero (by omega)
    have hb : b = [] := List.eq_nil_of_length_eq_zero (by omega)
    subst ha; subst hb; rfl
  | succ n ih =>
    intro a b h
    match a, b with
    | [], b => rw [levSpec_nil_left, levSpec_nil_right]
    | a, [] => rw [levSpec_nil_left, levSpec_nil_right]
    | x :: xs, y :: ys =>
      rw [levSpec_cons_cons, levSpec_cons_cons]
      simp only [List.length_cons] at h
      have h1 : levenshteinSpec xs ys = levenshteinSpec ys xs :=
        ih xs ys (by omega)
      have h2 : levenshteinSpec xs (y :: ys) =
          levenshteinSpec (y :: ys) xs := ih xs (y :: ys) (by simp; omega)
      have h3 : levenshteinSpec (x :: xs) ys =
          levenshteinSpec ys (x :: xs) := ih (x :: xs) ys (by simp; omega)
      by_cases hxy : x = y
      · subst hxy
        simp [h1]
      · rw [if_neg hxy, if_neg (Ne.symm hxy), h1, h2, h3]
        simp only [natMin_eq_min]
        omega

theorem levSpec_comm (a b : List Char) :
    levenshteinSpec a b = levenshteinSpec b a :=
  levSpec_comm_aux (a.length + b.length) a b le_rfl

theorem levSpec_self (a : List Char) : levenshteinSpec a a = 0 := by
  induction a with
  | nil => simp [levSpec_nil_left]
  | cons x xs ih => rw [levSpec_cons_cons, if_pos rfl, ih]

theorem levSpec_le_max :
    ∀ n a b, a.length + b.length ≤ n →
      levenshteinSpec a b ≤ Nat.max a.length b.length := by
  intro n
  induction n with
  | zero =>
    intro a b h
    have ha : a = [] := List.eq_nil_of_length_eq_zero (by omega)
    have hb : b = [] := List.eq_nil_of_length_eq_zero (by omega)
    subst ha; subst hb; simp [levSpec_nil_left]
  | succ n ih =>
    intro a b h
    match a, b with
    | [], b =>
      rw [levSpec_nil_left]
      simp only [natMax_eq_max, List.length_nil]
      omega
    | a, [] =>
      rw [levSpec_nil_right]
      simp only [natMax_eq_max, List.length_nil]
      omega
    | x :: xs, y :: ys =>
      rw [levSpec_cons_cons]
      simp only [List.length_cons] at h ⊢
      have h1 := ih xs ys (by omega)
      simp only [natMin_eq_min, natMax_eq_max] at h1 ⊢
      by_cases hxy : x = y
      · rw [if_pos hxy]; omega
      · rw [if_neg hxy]; omega

theorem levSpec_single (x : Char) :
    ∀ w, levenshteinSpec [x] w =
      if x ∈ w then w.length - 1 else Nat.max 1 w.length := by
  intro w
  induction w with
  | nil => simp [levSpec_nil_right]
  | cons y ys ih =>
    rw [levSpec_cons_cons, levSpec_nil_left, levSpec_nil_left]
    by_cases hxy : x = y
    · rw [if_pos hxy, if_pos (by simp [hxy])]
      simp
    · rw [if_neg hxy, ih]
      by_cases hm : x ∈ ys
      · have hys : 1 ≤ ys.length :=
          List.length_pos.mpr (List.ne_nil_of_mem hm)
        rw [if_pos hm, if_pos (by simp [hm])]
        simp only [List.length_cons, natMin_eq_min, natMax_eq_max]
        omega
      · rw [if_neg hm, if_neg (by simp [hxy, hm])]
        simp only [List.length_cons, natMin_eq_min, natMax_eq_max]
        omega

theorem levSpec_single_right (y : Char) (w : List Char) :
    levenshteinSpec w [y] =
      if y ∈ w then w.length - 1 else Nat.max 1 w.length := by
  rw [levSpec_comm, levSpec_single]

/-- Transpose invariance of a 3×3 grid of minima: taking row minima then
the overall minimum equals taking column minima first (each row/column
minimum carrying one added edit).  This is the arithmetic heart of the
last-character recurrence below. -/
theorem min_grid (a1 a2 a3 b1 b2 b3 c1 c2 c3 : Nat) :
    1 + min (1 + min a1 (min a2 a3))
      (min (1 + min b1 (min b2 b3)) (1 + min c1 (min c2 c3))) =
    1 + min (1 + min a1 (min b1 c1))
      (min (1 + min a2 (min b2 c2)) (1 + min a3 (min b3 c3))) := by
  have hpull : ∀ x y : Nat, min (1 + x) (1 + y) = 1 + min x y :=
    fun x y => by omega
  simp only [hpull]
  have hflat :
      min (min a1 (min a2 a3)) (min (min b1 (min b2 b3)) (min c1 (min c2 c3))) =
      min (min a1 (min b1 c1)) (min (min a2 (min b2 c2)) (min a3 (min b3 c3))) := by
    apply le_antisymm <;> simp only [le_min_iff, min_le_iff] <;> omega
  omega

/-- The last-character recurrence for the textbook Levenshtein distance:
extending both strings by one character at the end satisfies the same
recurrence as extending at the front.  This is the induction step that
lets the row-based implementation (which grows prefixes) be compared with
the head-recursive definition. -/
theorem levSpec_snoc_aux :
    ∀ n u v (x y : Char), u.length + v.length ≤ n →
      levenshteinSpec (u ++ [x]) (v ++ [y]) =
        if x = y then levenshteinSpec u v
        else 1 + Nat.min (levenshteinSpec u v)
          (Nat.min (levenshteinSpec u (v ++ [y]))
            (levenshteinSpec (u ++ [x]) v)) := by
  intro n
  induction n with
  | zero =>
    intro u v x y h
    have hu : u = [] := List.eq_nil_of_length_eq_zero (by omega)
    have hv : v = [] := List.eq_nil_of_length_eq_zero (by omega)
    subst hu; subst hv
    simp only [List.nil_append]
    rw [levSpec_cons_cons, levSpec_nil_left, levSpec_nil_left,
      levSpec_nil_right]
  | succ n ih =>
    intro u v x y h
    match u, v with
    | [], v =>
      simp only [List.nil_append]
      rw [levSpec_single x (v ++ [y]), levSpec_single x v,
        levSpec_nil_left, levSpec_nil_left]
      by_cases hxy : x = y
      · rw [if_pos hxy, if_pos (by simp [hxy])]
        simp
      · rw [if_neg hxy]
        by_cases hm : x ∈ v
        · have hv : 1 ≤ v.length :=
            List.length_pos.mpr (List.ne_nil_of_mem hm)
          rw [if_pos (by simp [hm]), if_pos hm]
          simp only [List.length_append, List.length_singleton,
            natMin_eq_min, natMax_eq_max]
          omega
        · rw [if_neg (by simp [hxy, hm]), if_neg hm]
          simp only [List.length_append, List.length_singleton,
            natMin_eq_min, natMax_eq_max]
          omega
    | u, [] =>
      simp only [List.nil_append]
      rw [levSpec_single_right y (u ++ [x]), levSpec_single_right y u,
        levSpec_nil_right, levSpec_nil_right]
      by_cases hxy : x = y
      · rw [if_pos hxy, if_pos (by simp [hxy])]
        simp
      · rw [if_neg hxy]
        by_cases hm : y ∈ u
        · have hu : 1 ≤ u.length :=
            List.length_pos.mpr (List.ne_nil_of_mem hm)
          rw [if_pos (by simp [hm]), if_pos hm]
          simp only [List.length_append, List.length_singleton,
            natMin_eq_min, natMax_eq_max]
          omega
        · have hmem : ¬ y ∈ u ++ [x] := by
            simp only [List.mem_append, List.mem_singleton]
            rintro (h' | h')
            · exact hm h'
            · exact hxy h'.symm
          rw [if_neg hmem, if_neg hm]
          simp only [List.length_append, List.length_singleton,
            natMin_eq_min, natMax_eq_max]
          omega
    | c :: u', d :: v' =>
      simp only [List.length_cons] at h
      simp only [List.cons_append]
      have ih1 := ih u' v' x y (by omega)
      have ih2 := ih u' (d :: v') x y (by simp; omega)
      have ih3 := ih (c :: u') v' x y (by simp; omega)
      simp only [List.cons_append] at ih2 ih3
      by_cases hcd : c = d
      · subst hcd
        rw [levSpec_cons_cons c c (u' ++ [x]) (v' ++ [y]), if_pos rfl,
          levSpec_cons_cons c c u' v', if_pos rfl,
          levSpec_cons_cons c c u' (v' ++ [y]), if_pos rfl,
          levSpec_cons_cons c c (u' ++ [x]) v', if_pos rfl]
        exact ih1
      · rw [levSpec_cons_cons c d (u' ++ [x]) (v' ++ [y]), if_neg hcd,
          levSpec_cons_cons c d u' v', if_neg hcd,
          levSpec_cons_cons c d u' (v' ++ [y]), if_neg hcd,
          levSpec_cons_cons c d (u' ++ [x]) v', if_neg hcd,
          ih1, ih2, ih3]
        by_cases hxy : x = y
        · simp only [if_pos hxy]
        · simp only [if_neg hxy, natMin_eq_min]
          exact min_grid _ _ _ _ _ _ _ _ _

theorem levSpec_snoc (u v : List Char) (x y : Char) :
    levenshteinSpec (u ++ [x]) (v ++ [y]) =
      if x = y then levenshteinSpec u v
      else 1 + Nat.min (levenshteinSpec u v)
        (Nat.min (levenshteinSpec u (v ++ [y]))
          (levenshteinSpec (u ++ [x]) v)) :=
  levSpec_snoc_aux (u.length + v.length) u v x y le_rfl

/-- The intended contents of the DP row at positions `|p|+1 .. |p|+|s|`
after the prefix `w` of `a` has been processed: the distances from `w` to
the prefixes of `b` extending `p` (where `b = p ++ s`). -/
def rowVals (w p : List Char) : List Char → List Nat
  | [] => []
  | y :: ys => levenshteinSpec w (p ++ [y]) :: rowVals w (p ++ [y]) ys

/-- The whole DP row after the prefix `w` has been processed. -/
def fullRow (w b : List Char) : List Nat :=
  levenshteinSpec w [] :: rowVals w [] b

/-- The inner loop computes the next row's tail from the previous row's
tail: if `prev` and `cur` hold the distances `levenshteinSpec u p` and
`levenshteinSpec (u ++ [x]) p`, and the old-row values are the distances
from `u` to the prefixes extending `p`, the output is the new row's
values. -/
theorem levInner_spec (x : Char) (u : List Char) :
    ∀ s p, levInner x (levenshteinSpec u p) (levenshteinSpec (u ++ [x]) p)
        s (rowVals u p s) = rowVals (u ++ [x]) p s := by
  intro s
  induction s with
  | nil => intro p; rfl
  | cons y ys ih =>
    intro p
    simp only [rowVals, levInner]
    have hv : (if x = y then levenshteinSpec u p
        else Nat.min (levenshteinSpec u p + 1)
          (Nat.min (levenshteinSpec u (p ++ [y]) + 1)
            (levenshteinSpec (u ++ [x]) p + 1))) =
        levenshteinSpec (u ++ [x]) (p ++ [y]) := by
      rw [levSpec_snoc]
      by_cases hxy : x = y
      · rw [if_pos hxy, if_pos hxy]
      · rw [if_neg hxy, if_neg hxy]
        simp only [natMin_eq_min]
        omega
    rw [hv, ih (p ++ [y])]

theorem levRow_spec (x : Char) (u b : List Char) :
    levRow x (u.length + 1) b (fullRow u b) = fullRow (u ++ [x]) b := by
  have h0 : levenshteinSpec (u ++ [x]) [] = u.length + 1 := by
    rw [levSpec_nil_right]; simp
  simp only [fullRow, levRow]
  rw [← h0, levInner_spec x u b []]

theorem levLoop_spec (b : List Char) :
    ∀ xs u, levLoop b xs (u.length + 1) (fullRow u b) =
      fullRow (u ++ xs) b := by
  intro xs
  induction xs with
  | nil => intro u; simp [levLoop]
  | cons x xs ih =>
    intro u
    rw [levLoop, levRow_spec x u b]
    have hlen : (u ++ [x]).length + 1 = u.length + 1 + 1 := by simp
    rw [← hlen, ih (u ++ [x])]
    simp

theorem rowVals_nil_eq :
    ∀ (s p : List Char),
      rowVals [] p s = (List.range s.length).map (fun k => p.length + (k + 1)) := by
  intro s
  induction s with
  | nil => intro p; rfl
  | cons y ys ih =>
    intro p
    simp only [rowVals, levSpec_nil_left, ih (p ++ [y]), List.length_cons,
      List.range_succ_eq_map, List.map_cons, List.map_map]
    congr 1
    · simp
    · apply List.map_congr_left
      intro k _
      simp only [Function.comp_apply, List.length_append]
      simp
      omega

theorem fullRow_nil (b : List Char) :
    fullRow [] b = List.range (b.length + 1) := by
  simp only [fullRow, levSpec_nil_left, List.length_nil, rowVals_nil_eq,
    List.range_succ_eq_map]
  congr 1
  apply List.map_congr_left
  intro k _
  simp

theorem rowVals_getLastD (w : List Char) :
    ∀ s p d, s ≠ [] →
      (rowVals w p s).getLastD d = levenshteinSpec w (p ++ s) := by
  intro s
  induction s with
  | nil => intro p d h; exact absurd rfl h
  | cons y ys ih =>
    intro p d _
    by_cases hys : ys = []
    · subst hys
      simp [rowVals]
    · simp only [rowVals, List.getLastD_cons]
      rw [ih (p ++ [y]) _ hys]
      simp

/-- The rolling-buffer implementation agrees with the textbook recursive
definition on all inputs. -/
theorem lev_eq_levSpec (a b : List Char) :
    levenshtein a b = levenshteinSpec a b := by
  unfold levenshtein
  by_cases ha : a.length = 0
  · rw [if_pos ha]
    have : a = [] := List.eq_nil_of_length_eq_zero ha
    subst this
    rw [levSpec_nil_left]
  · rw [if_neg ha]
    by_cases hb : b.length = 0
    · rw [if_pos hb]
      have : b = [] := List.eq_nil_of_length_eq_zero hb
      subst this
      rw [levSpec_nil_right]
    · rw [if_neg hb]
      have hinit : List.range (b.length + 1) = fullRow [] b :=
        (fullRow_nil b).symm
      rw [hinit]
      have h1 : (1 : Nat) = ([] : List Char).length + 1 := by simp
      rw [h1, levLoop_spec b a []]
      simp only [List.nil_append, fullRow]
      have hbne : b ≠ [] := fun h => hb (by simp [h])
      rw [List.getLastD_cons, rowVals_getLastD a b [] _ hbne]
      simp

/-! ### Normalization lemmas -/

/-- The characters a `normalizeForCompare` output can contain: kept
characters other than `ç` (which NFD always decomposes away), and the
space. -/
def stableList : List Char :=
  ("abcdefghijklmnopqrstuvwxyz".toList) ++ ['œ', 'æ', apos, '-', ' ']

theorem nfdChar_no_cedilla (c : Char) : ('ç' : Char) ∉ nfdChar c := by
  unfold nfdChar
  cases hf : nfdPairs.find? (fun p => p.1 = c) with
  | none =>
    simp only [List.mem_singleton]
    rintro rfl
    have := List.find?_eq_none.mp hf ('ç', ['c', markCedilla]) (by decide)
    simp at this
  | some p =>
    have hp : p ∈ nfdPairs := List.mem_of_find?_eq_some hf
    have : ∀ q ∈ nfdPairs, ('ç' : Char) ∉ q.2 := by decide
    exact this p hp

theorem jsToLower_no_cedilla (c : Char) (h : c ≠ 'ç') :
    jsToLower c ≠ 'ç' := by
  unfold jsToLower
  cases hf : lowerPairs.find? (fun p => p.1 = c) with
  | none => exact h
  | some p =>
    have hp : p ∈ lowerPairs := List.mem_of_find?_eq_some hf
    have : ∀ q ∈ lowerPairs, q.2 ≠ 'ç' := by decide
    exact this p hp

theorem stable_nfd (c : Char) (hc : c ∈ stableList) :
    nfdChar c = [c] := by
  unfold nfdChar
  cases hf : nfdPairs.find? (fun p => p.1 = c) with
  | none => rfl
  | some p =>
    exfalso
    have hp : p ∈ nfdPairs := List.mem_of_find?_eq_some hf
    have hkey : p.1 = c := by
      have := List.find?_some hf
      simpa using this
    have : ∀ q ∈ nfdPairs, q.1 ∉ stableList := by decide
    exact this p hp (hkey ▸ hc)

theorem stable_toLower (c : Char) (hc : c ∈ stableList) :
    jsToLower c = c := by
  unfold jsToLower
  cases hf : lowerPairs.find? (fun p => p.1 = c) with
  | none => rfl
  | some p =>
    exfalso
    have hp : p ∈ lowerPairs := List.mem_of_find?_eq_some hf
    have hkey : p.1 = c := by
      have := List.find?_some hf
      simpa using this
    have : ∀ q ∈ lowerPairs, q.1 ∉ stableList := by decide
    exact this p hp (hkey ▸ hc)

theorem stable_not_mark (c : Char) (hc : c ∈ stableList) :
    isCombiningMark c = false := by
  fin_cases hc <;> decide

theorem stable_not_ws (c : Char) (hc : c ∈ stableList) (hsp : c ≠ ' ') :
    c.isWhitespace = false := by
  fin_cases hc <;> first | decide | exact absurd rfl hsp

theorem keep_cases (c : Char) (h : keepChar c = true) :
    ('a' ≤ c ∧ c ≤ 'z') ∨ c = 'œ' ∨ c = 'æ' ∨ c = 'ç' ∨ c = apos ∨
      c = '-' := by
  unfold keepChar at h
  simp only [Bool.or_eq_true, Bool.and_eq_true, decide_eq_true_eq] at h
  tauto

theorem range_mem_stable (c : Char) (h1 : 'a' ≤ c) (h2 : c ≤ 'z') :
    c ∈ stableList := by
  have hn1 : 97 ≤ c.toNat := h1
  have hn2 : c.toNat ≤ 122 := h2
  have hc : c = Char.ofNat c.toNat := (Char.ofNat_toNat c).symm
  interval_cases h : c.toNat <;> (rw [hc]; decide)

theorem keep_mem_stable (c : Char) (hk : keepChar c = true)
    (hne : c ≠ 'ç') : c ∈ stableList := by
  rcases keep_cases c hk with hr | h' | h' | h' | h' | h'
  · exact range_mem_stable c hr.1 hr.2
  · subst h'; decide
  · subst h'; decide
  · exact absurd h' hne
  · subst h'; decide
  · subst h'; decide

theorem keep_not_ws (c : Char) (h : keepChar c = true) :
    c.isWhitespace = false := by
  cases hw : c.isWhitespace
  · rfl
  · exfalso
    simp only [Char.isWhitespace, Bool.or_eq_true, decide_eq_true_eq] at hw
    have hw' : c = ' ' ∨ c = '\t' ∨ c = '\r' ∨ c = '\n' := by tauto
    rcases hw' with h' | h' | h' | h' <;> subst h' <;> revert h <;> decide

/-- Whether a list of characters starts with a space. -/
def headIsSpace : List Char → Bool
  | [] => false
  | c :: _ => c = ' '

/-- No two adjacent spaces anywhere in the list. -/
def noDS : List Char → Bool
  | [] => true
  | c :: rest => !(decide (c = ' ') && headIsSpace rest) && noDS rest

theorem getLast?_mem_self (l : List Char) (c : Char)
    (h : l.getLast? = some c) : c ∈ l := by
  obtain ⟨hne, hc⟩ :=
    List.mem_getLast?_eq_getLast (show c ∈ l.getLast? from h)
  subst hc
  exact List.getLast_mem hne

theorem collapse_mem :
    ∀ (l : List Char) (b : Bool) (c : Char), c ∈ collapseAux b l →
      (keepChar c = true ∧ c ∈ l) ∨ c = ' ' := by
  intro l
  induction l with
  | nil => intro b c hc; simp [collapseAux] at hc
  | cons a rest ih =>
    intro b c hc
    by_cases hk : keepChar a = true
    · rw [collapseAux, if_pos hk] at hc
      rcases List.mem_cons.mp hc with h | h
      · exact Or.inl ⟨by rw [h]; exact hk, by rw [h]; exact List.mem_cons_self _ _⟩
      · rcases ih false c h with ⟨h1, h2⟩ | h1
        · exact Or.inl ⟨h1, List.mem_cons_of_mem a h2⟩
        · exact Or.inr h1
    · rw [collapseAux, if_neg hk] at hc
      cases b with
      | true =>
        rw [if_pos rfl] at hc
        rcases ih true c hc with ⟨h1, h2⟩ | h1
        · exact Or.inl ⟨h1, List.mem_cons_of_mem a h2⟩
        · exact Or.inr h1
      | false =>
        rw [if_neg (by simp)] at hc
        rcases List.mem_cons.mp hc with h | h
        · exact Or.inr h
        · rcases ih true c h with ⟨h1, h2⟩ | h1
          · exact Or.inl ⟨h1, List.mem_cons_of_mem a h2⟩
          · exact Or.inr h1

theorem collapse_noDS :
    ∀ (l : List Char) (b : Bool), noDS (collapseAux b l) = true ∧
      (b = true → headIsSpace (collapseAux b l) = false) := by
  intro l
  induction l with
  | nil => intro b; exact ⟨rfl, fun _ => rfl⟩
  | cons a rest ih =>
    intro b
    by_cases hk : keepChar a = true
    · rw [collapseAux, if_pos hk]
      have ha : (decide (a = ' ')) = false := by
        rcases Decidable.em (a = ' ') with h | h
        · subst h; exact absurd hk (by decide)
        · simp [h]
      constructor
      · rw [noDS]
        simp only [ha, Bool.false_and, Bool.not_false, Bool.true_and]
        exact (ih false).1
      · intro _
        rw [headIsSpace, ha]
    · rw [collapseAux, if_neg hk]
      cases b with
      | true =>
        rw [if_pos rfl]
        exact ⟨(ih true).1, fun _ => ((ih true).2 rfl)⟩
      | false =>
        rw [if_neg (by simp)]
        refine ⟨?_, fun h => absurd h (by simp)⟩
        rw [noDS]
        have hhead : headIsSpace (collapseAux true rest) = false :=
          (ih true).2 rfl
        simp only [hhead, Bool.and_false, Bool.not_false, Bool.true_and]
        exact (ih true).1

theorem collapse_fixed :
    ∀ (l : List Char) (b : Bool),
      (∀ c ∈ l, keepChar c = true ∨ c = ' ') → noDS l = true →
      (b = true → headIsSpace l = false) → collapseAux b l = l := by
  intro l
  induction l with
  | nil => intro b _ _ _; rfl
  | cons a rest ih =>
    intro b halpha hds hhead
    have hds' : noDS rest = true := by
      rw [noDS] at hds
      exact (Bool.and_eq_true _ _ |>.mp hds).2
    by_cases hk : keepChar a = true
    · rw [collapseAux, if_pos hk]
      rw [ih false (fun c hc => halpha c (List.mem_cons_of_mem a hc)) hds'
        (fun h => absurd h (by simp))]
    · have ha : a = ' ' := by
        rcases halpha a (List.mem_cons_self a rest) with h | h
        · exact absurd h hk
        · exact h
      cases b with
      | true =>
        exfalso
        have := hhead rfl
        rw [headIsSpace, ha] at this
        simp at this
      | false =>
        rw [collapseAux, if_neg hk, if_neg (by simp)]
        have hrest_head : headIsSpace rest = false := by
          rw [noDS, ha] at hds
          rcases hr : headIsSpace rest with _ | _
          · rfl
          · rw [hr] at hds; simp at hds
        rw [ha]
        rw [ih true (fun c hc => halpha c (List.mem_cons_of_mem a hc)) hds'
          (fun _ => hrest_head)]

theorem trimRight_mem : ∀ (l : List Char) (c : Char), c ∈ trimRight l → c ∈ l := by
  intro l
  induction l with
  | nil => intro c hc; exact hc
  | cons a rest ih =>
    intro c hc
    rcases htr : trimRight rest with _ | ⟨r, rs⟩
    · rw [trimRight, htr] at hc
      split_ifs at hc
      · simp at hc
      · rcases List.mem_singleton.mp hc with rfl
        exact List.mem_cons_self _ _
    · rw [trimRight, htr] at hc
      rcases List.mem_cons.mp hc with h | h
      · rw [h]; exact List.mem_cons_self _ _
      · exact List.mem_cons_of_mem a (ih c (htr ▸ h))

theorem trimRight_head :
    ∀ (a : Char) (rest : List Char) (r : Char) (rs : List Char),
      trimRight (a :: rest) = r :: rs → r = a := by
  intro a rest r rs h
  rcases htr : trimRight rest with _ | ⟨x, xs⟩
  · simp only [trimRight, htr] at h
    split_ifs at h
    · injection h with h1 _
      exact h1.symm
  · simp only [trimRight, htr] at h
    injection h with h1 _
    exact h1.symm

theorem trimRight_noDS : ∀ (l : List Char), noDS l = true →
    noDS (trimRight l) = true := by
  intro l
  induction l with
  | nil => intro h; exact h
  | cons a rest ih =>
    intro h
    have hrest : noDS rest = true := by
      rw [noDS] at h
      exact ((Bool.and_eq_true _ _).mp h).2
    rcases htr : trimRight rest with _ | ⟨r, rs⟩
    · rw [trimRight, htr]
      split_ifs
      · rfl
      · simp [noDS, headIsSpace]
    · rw [trimRight, htr]
      have h2 : noDS (r :: rs) = true := htr ▸ ih hrest
      rcases rest with _ | ⟨b, rest'⟩
      · rw [show trimRight ([] : List Char) = [] from rfl] at htr
        exact List.noConfusion htr
      · have hr : r = b := trimRight_head b rest' r rs htr
        subst hr
        rw [noDS] at h ⊢
        simp only [headIsSpace] at h ⊢
        rw [Bool.and_eq_true] at h ⊢
        exact ⟨h.1, h2⟩

theorem trimRight_last : ∀ (l : List Char) (c : Char),
    (trimRight l).getLast? = some c → c.isWhitespace = false := by
  intro l
  induction l with
  | nil => intro c h; simp [trimRight] at h
  | cons a rest ih =>
    intro c h
    rcases htr : trimRight rest with _ | ⟨r, rs⟩
    · simp only [trimRight, htr] at h
      split_ifs at h with hw
      · simp at h
      · simp only [List.getLast?_singleton, Option.some.injEq] at h
        rw [← h]
        cases hb : a.isWhitespace
        · rfl
        · exact absurd hb hw
    · rw [trimRight, htr, List.getLast?_cons_cons] at h
      exact ih c (htr ▸ h)

theorem trimRight_eq_self : ∀ (l : List Char),
    (∀ c, l.getLast? = some c → c.isWhitespace = false) →
      trimRight l = l := by
  intro l
  induction l with
  | nil => intro _; rfl
  | cons a rest ih =>
    intro hlast
    rcases rest with _ | ⟨b, rest'⟩
    · have := hlast a (by simp)
      simp [trimRight, this]
    · have hrest : trimRight (b :: rest') = b :: rest' :=
        ih (fun c hc => hlast c (by rw [List.getLast?_cons_cons]; exact hc))
      rw [trimRight, hrest]

theorem noDS_dropWhile (p : Char → Bool) : ∀ (l : List Char),
    noDS l = true → noDS (l.dropWhile p) = true := by
  intro l
  induction l with
  | nil => intro h; exact h
  | cons a rest ih =>
    intro h
    have hrest : noDS rest = true := by
      rw [noDS] at h
      exact ((Bool.and_eq_true _ _).mp h).2
    rw [List.dropWhile_cons]
    split_ifs with hp
    · exact ih hrest
    · exact h

theorem dropWhile_head_false (p : Char → Bool) :
    ∀ (l : List Char) (r : Char) (rs : List Char),
      l.dropWhile p = r :: rs → p r = false := by
  intro l
  induction l with
  | nil => intro r rs h; simp at h
  | cons a rest ih =>
    intro r rs h
    rw [List.dropWhile_cons] at h
    split_ifs at h with hp
    · exact ih r rs h
    · have har : a = r := (List.cons.injEq _ _ _ _ |>.mp h).1
      subst har
      cases hb : p a
      · rfl
      · exact absurd hb hp

theorem jsTrim_mem (l : List Char) (c : Char) (hc : c ∈ jsTrim l) :
    c ∈ l :=
  (List.dropWhile_sublist _).subset (trimRight_mem _ c hc)

theorem jsTrim_noDS (l : List Char) (h : noDS l = true) :
    noDS (jsTrim l) = true :=
  trimRight_noDS _ (noDS_dropWhile _ _ h)

theorem jsTrim_head_not_space (l : List Char) :
    headIsSpace (jsTrim l) = false := by
  rcases ht : jsTrim l with _ | ⟨r, rs⟩
  · rfl
  · unfold jsTrim at ht
    rcases hd : l.dropWhile Char.isWhitespace with _ | ⟨b, l'⟩
    · rw [hd] at ht
      simp [trimRight] at ht
    · rw [hd] at ht
      have hrb : r = b := trimRight_head b l' r rs ht
      have hws : Char.isWhitespace b = false :=
        dropWhile_head_false _ l b l' hd
      rw [headIsSpace]
      subst hrb
      rcases Decidable.em (r = ' ') with hsp | hsp
      · subst hsp
        exact absurd hws (by decide)
      · simp [hsp]

theorem jsTrim_last_not_space (l : List Char) (c : Char)
    (h : (jsTrim l).getLast? = some c) : c ≠ ' ' := by
  intro he
  have := trimRight_last _ c h
  rw [he] at this
  exact absurd this (by decide)

theorem flatMap_id_of (l : List Char) (f : Char → List Char)
    (h : ∀ c ∈ l, f c = [c]) : l.flatMap f = l := by
  induction l with
  | nil => rfl
  | cons a rest ih =>
    rw [List.flatMap_cons, h a (List.mem_cons_self _ _),
      ih (fun c hc => h c (List.mem_cons_of_mem a hc))]
    rfl

theorem stable_keep_or_space :
    ∀ c ∈ stableList, keepChar c = true ∨ c = ' ' := by decide

/-- Every output of `normalizeForCompare` consists of stable characters,
has no double spaces, and neither starts nor ends with a space. -/
theorem normalize_out (s : List Char) :
    (∀ c ∈ normalizeForCompare s, c ∈ stableList) ∧
    noDS (normalizeForCompare s) = true ∧
    headIsSpace (normalizeForCompare s) = false ∧
    (∀ c, (normalizeForCompare s).getLast? = some c → c ≠ ' ') := by
  refine ⟨?_, ?_, ?_, ?_⟩
  · intro c hc
    unfold normalizeForCompare at hc
    have hc1 := jsTrim_mem _ _ hc
    rcases collapse_mem _ false c hc1 with ⟨hk, hcu⟩ | hsp
    · rcases List.mem_map.mp hcu with ⟨d, hd, rfl⟩
      have hdf : d ∈ s.flatMap nfdChar := List.mem_of_mem_filter hd
      rcases List.mem_flatMap.mp hdf with ⟨e, _, hde⟩
      have hdc : d ≠ 'ç' := fun hh => nfdChar_no_cedilla e (hh ▸ hde)
      exact keep_mem_stable _ hk (jsToLower_no_cedilla d hdc)
    · rw [hsp]; decide
  · exact jsTrim_noDS _ (collapse_noDS _ false).1
  · exact jsTrim_head_not_space _
  · exact fun c h => jsTrim_last_not_space _ c h

/-- `normalizeForCompare` is the identity on any string made of stable
characters with no double spaces and no leading or trailing space. -/
theorem normalize_fixed (t : List Char)
    (halpha : ∀ c ∈ t, c ∈ stableList) (hds : noDS t = true)
    (hhead : headIsSpace t = false)
    (hlast : ∀ c, t.getLast? = some c → c ≠ ' ') :
    normalizeForCompare t = t := by
  unfold normalizeForCompare
  rw [flatMap_id_of t nfdChar (fun c hc => stable_nfd c (halpha c hc))]
  rw [List.filter_eq_self.mpr (fun c hc => by
    rw [stable_not_mark c (halpha c hc)]; rfl)]
  rw [List.map_congr_left (fun c hc => stable_toLower c (halpha c hc))]
  rw [show List.map (fun a => a) t = t by simp]
  rw [show collapseNonKeep t = t from
    collapse_fixed t false (fun c hc => stable_keep_or_space c (halpha c hc))
      hds (fun hh => absurd hh (by simp))]
  unfold jsTrim
  have hdw : t.dropWhile Char.isWhitespace = t := by
    cases t with
    | nil => rfl
    | cons a rest =>
      rw [List.dropWhile_cons, if_neg ?_]
      have ha : a ∈ stableList := halpha a (List.mem_cons_self _ _)
      have hsp : a ≠ ' ' := by
        intro he
        rw [headIsSpace, he] at hhead
        simp at hhead
      rw [stable_not_ws a ha hsp]
      simp
  rw [hdw]
  exact trimRight_eq_self t (fun c hc => by
    have hmem := getLast?_mem_self t c hc
    exact stable_not_ws c (halpha c hmem) (hlast c hc))

/-- Normalization is idempotent. -/
theorem normalize_idem (s : List Char) :
    normalizeForCompare (normalizeForCompare s) = normalizeForCompare s := by
  obtain ⟨h1, h2, h3, h4⟩ := normalize_out s
  exact normalize_fixed _ h1 h2 h3 h4

/-! ### Rendering lemmas -/

/-- The separator the spec prescribes between two adjacent tokens: nothing
before closing punctuation or after an opening bracket/quote, otherwise a
single space. -/
def sepBetween (a b : Token) : List Char :=
  if isClosingPunct b.text || isOpeningBracket a.text then [] else [' ']

/-- The spec's formulation of the rendering rule: emit every token's span,
and between each pair of adjacent tokens the separator `sepBetween`. -/
def renderSpec : List Token → List Char
  | [] => []
  | t :: ts =>
    spanOf t ++
      (List.zip (t :: ts) ts).flatMap (fun pc => sepBetween pc.1 pc.2 ++ spanOf pc.2)

theorem renderRest_eq_spec :
    ∀ (ts : List Token) (prev : Token),
      renderRest prev ts =
        (List.zip (prev :: ts) ts).flatMap
          (fun pc => sepBetween pc.1 pc.2 ++ spanOf pc.2) := by
  intro ts
  induction ts with
  | nil => intro prev; rfl
  | cons t ts ih =>
    intro prev
    rw [renderRest, ih t]
    simp only [List.zip_cons_cons, List.flatMap_cons]
    rfl

theorem renderTokens_eq_spec (ts : List Token) :
    renderTokens (some ts) = renderSpec ts := by
  cases ts with
  | nil => rfl
  | cons t ts => rw [renderTokens, renderSpec, renderRest_eq_spec ts t]

/-! ### Similarity score lemmas -/

theorem similarityScore_empty (e a : List Char)
    (h : normalizeForCompare e = [] ∨ normalizeForCompare a = []) :
    similarityScore e a = 0 := by
  unfold similarityScore
  rw [if_pos h]

theorem similarityScore_formula (e a : List Char)
    (he : normalizeForCompare e ≠ []) (ha : normalizeForCompare a ≠ []) :
    similarityScore e a =
      1 - (levenshtein (normalizeForCompare e) (normalizeForCompare a) : ℚ) /
        (Nat.max (normalizeForCompare e).length
          (normalizeForCompare a).length : ℚ) := by
  unfold similarityScore
  rw [if_neg (by
    rintro (h | h)
    · exact he h
    · exact ha h)]
  rw [if_neg (by
    intro hm
    rw [natMax_eq_max] at hm
    have h1 : (normalizeForCompare e).length = 0 := by omega
    exact he (List.eq_nil_of_length_eq_zero h1))]

theorem levenshtein_le_max (a b : List Char) :
    levenshtein a b ≤ Nat.max a.length b.length := by
  rw [lev_eq_levSpec]
  exact levSpec_le_max (a.length + b.length) a b le_rfl

theorem similarityScore_nonneg_le_one (e a : List Char) :
    0 ≤ similarityScore e a ∧ similarityScore e a ≤ 1 := by
  by_cases h : normalizeForCompare e = [] ∨ normalizeForCompare a = []
  · rw [similarityScore_empty e a h]
    norm_num
  · push_neg at h
    rw [similarityScore_formula e a h.1 h.2]
    set ne' := normalizeForCompare e with hne
    set na' := normalizeForCompare a with hna
    have hlen : 0 < ne'.length := List.length_pos.mpr h.1
    have hM : 0 < Nat.max ne'.length na'.length := by
      rw [natMax_eq_max]; omega
    have hMQ : (0 : ℚ) < (Nat.max ne'.length na'.length : ℚ) := by
      exact_mod_cast hM
    have hd : levenshtein ne' na' ≤ Nat.max ne'.length na'.length :=
      levenshtein_le_max ne' na'
    have hdQ : (levenshtein ne' na' : ℚ) ≤
        (Nat.max ne'.length na'.length : ℚ) := by exact_mod_cast hd
    have h0 : (0 : ℚ) ≤ (levenshtein ne' na' : ℚ) := by positivity
    constructor
    · have : (levenshtein ne' na' : ℚ) /
          (Nat.max ne'.length na'.length : ℚ) ≤ 1 :=
        (div_le_one hMQ).mpr hdQ
      linarith
    · have : 0 ≤ (levenshtein ne' na' : ℚ) /
          (Nat.max ne'.length na'.length : ℚ) := by positivity
      linarith

theorem similarityScore_self (a : List Char)
    (h : normalizeForCompare a ≠ []) : similarityScore a a = 1 := by
  rw [similarityScore_formula a a h h]
  have h0 : levenshtein (normalizeForCompare a) (normalizeForCompare a) = 0 := by
    rw [lev_eq_levSpec, levSpec_self]
  rw [h0]
  have hM : 0 < Nat.max (normalizeForCompare a).length
      (normalizeForCompare a).length := by
    have := List.length_pos.mpr h
    rw [natMax_eq_max]
    omega
  have hMQ : (Nat.max (normalizeForCompare a).length
      (normalizeForCompare a).length : ℚ) ≠ 0 := by
    exact_mod_cast Nat.pos_iff_ne_zero.mp hM
  field_simp

/-! ### Claims -/

/-- C1: for every pair of strings, `similarityScore` equals
`1 − levenshtein(normalize(expected), normalize(actual)) / max(len, len)`,
and it returns 0 whenever either of the two normalized strings is
empty. -/
theorem claim_C1 (e a : List Char) :
    similarityScore e a =
      if normalizeForCompare e = [] ∨ normalizeForCompare a = [] then 0
      else 1 -
        (levenshtein (normalizeForCompare e) (normalizeForCompare a) : ℚ) /
          (Nat.max (normalizeForCompare e).length
            (normalizeForCompare a).length : ℚ) := by
  by_cases h : normalizeForCompare e = [] ∨ normalizeForCompare a = []
  · rw [if_pos h, similarityScore_empty e a h]
  · push_neg at h
    rw [if_neg (by tauto), similarityScore_formula e a h.1 h.2]

/-- C2: the single-row rolling-buffer implementation of `levenshtein`
computes exactly the textbook recursive edit distance with unit costs. -/
theorem claim_C2 (a b : List Char) : levenshtein a b = levenshteinSpec a b :=
  lev_eq_levSpec a b

/-- The ASCII string `"123"`: every character is collapsed away by
normalization, so its self-similarity score is 0, not 1. -/
def asciiDigits : List Char := ['1', '2', '3']

/-- C3 counterexample: the ASCII pair `("123", "123")` has similarity
score 0, not 1.0, because `"123"` normalizes to the empty string. -/
theorem claim_C3_counterexample :
    similarityScore asciiDigits asciiDigits ≠ 1 := by
  rw [similarityScore_empty asciiDigits asciiDigits (Or.inl (by decide))]
  norm_num

/-- C3 (amended): for every ASCII string whose normalization is
non-empty, the self-similarity score is 1. -/
theorem claim_C3 (a : List Char) (_hascii : ∀ c ∈ a, c.toNat ≤ 127)
    (h : normalizeForCompare a ≠ []) : similarityScore a a = 1 :=
  similarityScore_self a h

/-- C3 witness: the amended statement at the concrete ASCII input
`"chat"`. -/
theorem claim_C3_witness :
    (∀ c ∈ ("chat".toList), c.toNat ≤ 127) ∧
      normalizeForCompare ("chat".toList) ≠ [] ∧
      similarityScore ("chat".toList) ("chat".toList) = 1 :=
  ⟨by decide, by decide, claim_C3 _ (by decide) (by decide)⟩

/-- C4: the feedback tier is determined by the similarity score
(≥ 0.85 very close, 0.60 ≤ s < 0.85 decent, < 0.60 large deviation);
expected "chat" versus actual "chats" gives distance 1, maxLen 5,
score 0.8 and the decent tier; empty recognized text yields the fixed
no-valid-text message. -/
theorem claim_C4 :
    (∀ (expected : List Char) (segs : List (List Char)),
      jsTrim (joinSpace segs) = [] →
        evaluatePronunciation expected segs = Feedback.noText) ∧
    (∀ (expected : List Char) (segs : List (List Char)),
      jsTrim (joinSpace segs) ≠ [] →
        ((85 / 100 : ℚ) ≤ similarityScore expected (jsTrim (joinSpace segs)) →
          evaluatePronunciation expected segs = Feedback.veryClose) ∧
        ((60 / 100 : ℚ) ≤ similarityScore expected (jsTrim (joinSpace segs)) ∧
            similarityScore expected (jsTrim (joinSpace segs)) <
              (85 / 100 : ℚ) →
          evaluatePronunciation expected segs = Feedback.decent) ∧
        (similarityScore expected (jsTrim (joinSpace segs)) < (60 / 100 : ℚ) →
          evaluatePronunciation expected segs = Feedback.largeDeviation)) ∧
    levenshtein (normalizeForCompare ("chat".toList))
      (normalizeForCompare ("chats".toList)) = 1 ∧
    Nat.max (normalizeForCompare ("chat".toList)).length
      (normalizeForCompare ("chats".toList)).length = 5 ∧
    similarityScore ("chat".toList) ("chats".toList) = 4 / 5 ∧
    evaluatePronunciation ("chat".toList) [("chats".toList)] =
      Feedback.decent := by
  have hn1 : normalizeForCompare ("chat".toList) = "chat".toList := by decide
  have hn2 : normalizeForCompare ("chats".toList) = "chats".toList := by decide
  have hlev : levenshtein ("chat".toList) ("chats".toList) = 1 := by decide
  have hscore : similarityScore ("chat".toList) ("chats".toList) = 4 / 5 := by
    rw [similarityScore_formula _ _ (by decide) (by decide), hn1, hn2, hlev]
    norm_num
  refine ⟨?_, ?_, ?_, ?_, hscore, ?_⟩
  · intro e segs h
    unfold evaluatePronunciation
    rw [if_pos h]
  · intro e segs h
    refine ⟨?_, ?_, ?_⟩
    · intro hs
      unfold evaluatePronunciation
      rw [if_neg h, if_pos (by exact hs)]
    · intro hs
      unfold evaluatePronunciation
      rw [if_neg h, if_neg (by exact not_le.mpr hs.2), if_pos (by exact hs.1)]
    · intro hs
      unfold evaluatePronunciation
      rw [if_neg h, if_neg (by exact not_le.mpr (by linarith)),
        if_neg (by exact not_le.mpr hs)]
  · rw [hn1, hn2]; exact hlev
  · rw [hn1, hn2]; decide
  · have hact : jsTrim (joinSpace [("chats".toList)]) = "chats".toList := by
      decide
    unfold evaluatePronunciation
    rw [hact, if_neg (by decide), hscore,
      if_neg (by norm_num), if_pos (by norm_num)]

/-- C4 witness: the no-valid-text branch at a concrete empty segment
list. -/
theorem claim_C4_witness :
    jsTrim (joinSpace ([] : List (List Char))) = [] ∧
      evaluatePronunciation ("chat".toList) [] = Feedback.noText :=
  ⟨by decide, claim_C4.1 _ [] (by decide)⟩

/-- The diff tokens of the C5 scenario. -/
def tokLe : Token := ⟨"le".toList, "match".toList⟩

/-- The second diff token of the C5 scenario. -/
def tokChat : Token := ⟨"chat".toList, "missing".toList⟩

/-- C5: `renderTokens` joins token spans with single spaces except before
closing punctuation and after opening brackets/quotes, picks classes
`diff-match` and `diff-miss` for statuses match and missing, and renders
the scenario token list to the expected markup. -/
theorem claim_C5 :
    (∀ ts, renderTokens (some ts) = renderSpec ts) ∧
    classOf ("match".toList) = ("diff-match".toList) ∧
    classOf ("missing".toList) = ("diff-miss".toList) ∧
    renderTokens (some [tokLe, tokChat]) =
      ("<span class=\"diff-match\">le</span> <span class=\"diff-miss\">chat</span>".toList) := by
  refine ⟨renderTokens_eq_spec, by decide, by decide, by decide⟩

/-- The controller state of the C6 counterexample: card 1 current, answer
shown, buttons enabled. -/
def s0 : ReviewState :=
  { currentCard := some 1, answerShown := true, buttonsEnabled := true }

/-- C6 counterexample: with the answer shown (`answerShown = true`
throughout), `submitAnswer` posts the rating for card 1, and — after the
failure path re-enables the buttons — a second invocation posts the same
rating for the same card again: the rating action is not idempotent-guarded
by `answerShown`. -/
theorem claim_C6_counterexample :
    s0.answerShown = true ∧
    (submitAnswer s0 2 false none).2 = [Effect.postAnswer 1 2] ∧
    (submitAnswer s0 2 false none).1.answerShown = true ∧
    (submitAnswer (submitAnswer s0 2 false none).1 2 false none).2 =
      [Effect.postAnswer 1 2] := by decide

/-- C6 (amended): the reveal action is idempotent-guarded by
`answerShown` (a second invocation is a no-op with no effect), while the
rating action is guarded only by the presence of a current card — it posts
iff a card is current, independently of the `answerShown` flag. -/
theorem claim_C6 :
    (∀ s : ReviewState, showAnswer (showAnswer s).1 = ((showAnswer s).1, [])) ∧
    (∀ (s : ReviewState) (ease : Nat) (ok : Bool) (next : Option Nat),
      (submitAnswer s ease ok next).2 = [] ↔ s.currentCard = none) ∧
    (∀ (s : ReviewState) (ease : Nat) (ok : Bool) (next : Option Nat)
        (b : Bool),
      (submitAnswer { s with answerShown := b } ease ok next).2 =
        (submitAnswer s ease ok next).2) := by
  refine ⟨?_, ?_, ?_⟩
  · intro s
    by_cases h : s.currentCard = none ∨ s.answerShown
    · have h1 : showAnswer s = (s, []) := by rw [showAnswer, if_pos h]
      rw [h1]
      exact h1
    · have h1 : showAnswer s =
          ({ s with answerShown := true }, [Effect.postReveal]) := by
        rw [showAnswer, if_neg h]
      rw [h1]
      show showAnswer { s with answerShown := true } = _
      rw [showAnswer, if_pos (Or.inr rfl)]
  · intro s ease ok next
    cases hc : s.currentCard with
    | none => simp [submitAnswer, hc]
    | some cid => cases ok <;> simp [submitAnswer, hc]
  · intro s ease ok next b
    cases hc : s.currentCard with
    | none => simp [submitAnswer, hc]
    | some cid => cases ok <;> simp [submitAnswer, hc]

/-- C7: normalization is idempotent. -/
theorem claim_C7 (x : List Char) :
    normalizeForCompare (normalizeForCompare x) = normalizeForCompare x :=
  normalize_idem x

/-- C8: the rolling-buffer Levenshtein distance is symmetric. -/
theorem claim_C8 (a b : List Char) : levenshtein a b = levenshtein b a := by
  rw [lev_eq_levSpec, lev_eq_levSpec]
  exact levSpec_comm a b

/-- C9: the similarity score always lies in `[0, 1]`, resting on the
bound `levenshtein a b ≤ max (len a) (len b)`. -/
theorem claim_C9 :
    (∀ e a : List Char,
      0 ≤ similarityScore e a ∧ similarityScore e a ≤ 1) ∧
    (∀ a b : List Char, levenshtein a b ≤ Nat.max a.length b.length) :=
  ⟨similarityScore_nonneg_le_one, levenshtein_le_max⟩

/-- C10: `renderTokens` is total — a missing or empty token list renders
to the empty string, and any status other than match and missing is
rendered with the `diff-extra` class. -/
theorem claim_C10 :
    renderTokens none = [] ∧
    renderTokens (some []) = [] ∧
    (∀ text status : List Char, status ≠ ("match".toList) →
      status ≠ ("missing".toList) →
      spanOf ⟨text, status⟩ =
        ("<span class=\"".toList) ++ ("diff-extra".toList) ++
          ("\">".toList) ++ escapeHtml text ++ ("</span>".toList)) := by
  refine ⟨rfl, rfl, ?_⟩
  intro text status h1 h2
  unfold spanOf classOf
  rw [if_neg h1, if_neg h2]

/-- C10 witness: a token with the unknown status `"weird"` is rendered
with the `diff-extra` class. -/
theorem claim_C10_witness :
    ("weird".toList ≠ ("match".toList)) ∧
    ("weird".toList ≠ ("missing".toList)) ∧
    spanOf ⟨"xx".toList, "weird".toList⟩ =
      ("<span class=\"".toList) ++ ("diff-extra".toList) ++
        ("\">".toList) ++ escapeHtml ("xx".toList) ++ ("</span>".toList) :=
  ⟨by decide, by decide, claim_C10.2.2 _ _ (by decide) (by decide)⟩

end Anki
